import Mathlib

/-!
Verification of the space-allocation and object-metadata catalog
(`src/fs.cc`, `src/osd/HitSet.h`) against its specification.

The embedding translates the program's pure computations into Lean
functions; byte buffers become `List Nat` with each entry a byte,
64-bit machine integers become `Nat` with explicit `% 2 ^ 64`, the
durable key-value state becomes an explicit state record, and a
submitted transaction either applies atomically or leaves the state
unchanged (the atomicity contract of the external store).
-/

/-- Little-endian byte encoding of a natural number into a fixed number
of bytes, least significant byte first (the raw encode of a `u64`
writes 8 such bytes). -/
def toLEBytes : Nat → Nat → List Nat
  | 0, _ => []
  | n + 1, x => x % 256 :: toLEBytes n (x / 256)

/-- Little-endian byte decoding, least significant byte first. -/
def fromLEBytes : List Nat → Nat
  | [] => 0
  | b :: bs => b + 256 * fromLEBytes bs

/-- The 8-byte little-endian encoding of a 64-bit value, as produced by
the store's raw `u64` encode. -/
def u64LE (x : Nat) : List Nat := toLEBytes 8 x

/-- The `i`-th 64-bit little-endian element of a byte buffer. -/
def u64At (bs : List Nat) (i : Nat) : Nat := fromLEBytes ((bs.drop (8 * i)).take 8)

theorem fromLEBytes_toLEBytes (n x : Nat) : fromLEBytes (toLEBytes n x) = x % 256 ^ n := by
  induction n generalizing x with
  | zero => simp [toLEBytes, fromLEBytes, Nat.mod_one]
  | succ n ih =>
    simp only [toLEBytes, fromLEBytes, ih]
    rw [pow_succ', Nat.mod_mul]

theorem length_toLEBytes (n x : Nat) : (toLEBytes n x).length = n := by
  induction n generalizing x with
  | zero => rfl
  | succ n ih => simp [toLEBytes, ih]

theorem length_u64LE (x : Nat) : (u64LE x).length = 8 := length_toLEBytes 8 x

theorem fromLEBytes_u64LE (x : Nat) : fromLEBytes (u64LE x) = x % 2 ^ 64 := by
  have h : (256 : Nat) ^ 8 = 2 ^ 64 := by norm_num
  rw [u64LE, fromLEBytes_toLEBytes, h]

/-- Source: the loop body of `_Int64ArrayMergeOperator::merge` run `n`
times — the `i`-th output element is the wrapping 64-bit sum of the two
operands' `i`-th little-endian elements. -/
def mergeChunks : Nat → List Nat → List Nat → List Nat
  | 0, _, _ => []
  | n + 1, l, r =>
    u64LE ((fromLEBytes (l.take 8) + fromLEBytes (r.take 8)) % 2 ^ 64) ++
      mergeChunks n (l.drop 8) (r.drop 8)

/-- Source: `_Int64ArrayMergeOperator::merge` — asserts
`llen == rlen` and `rlen % 8 == 0` (modelled as `none` when an
assertion fires), then element-wise wrapping 64-bit sums over
`rlen >> 3` elements. -/
def int64ArrayMerge (l r : List Nat) : Option (List Nat) :=
  if l.length = r.length ∧ r.length % 8 = 0 then
    some (mergeChunks (r.length / 8) l r)
  else none

/-- Source: `_Int64ArrayMergeOperator::merge_nonexistent` — the new
value is the incoming buffer verbatim. -/
def int64ArrayMergeNonexistent (rdata : List Nat) : List Nat := rdata

theorem length_mergeChunks (n : Nat) (l r : List Nat) :
    (mergeChunks n l r).length = 8 * n := by
  induction n generalizing l r with
  | zero => rfl
  | succ n ih =>
    simp only [mergeChunks, List.length_append, length_u64LE, ih]
    omega

theorem u64At_append_u64LE (x : Nat) (rest : List Nat) (i : Nat) :
    u64At (u64LE x ++ rest) (i + 1) = u64At rest i := by
  have h8 : (u64LE x).length = 8 := length_u64LE x
  simp only [u64At]
  have : 8 * (i + 1) = (u64LE x).length + 8 * i := by omega
  rw [this, List.drop_append]

theorem u64At_zero_append_u64LE (x : Nat) (rest : List Nat) :
    u64At (u64LE x ++ rest) 0 = x % 2 ^ 64 := by
  have h8 : (u64LE x).length = 8 := length_u64LE x
  simp only [u64At, Nat.mul_zero, List.drop_zero]
  rw [show (8 : Nat) = (u64LE x).length from h8.symm, List.take_left,
    fromLEBytes_u64LE]

theorem u64At_mergeChunks (n : Nat) (l r : List Nat) (i : Nat) (hi : i < n) :
    u64At (mergeChunks n l r) i = (u64At l i + u64At r i) % 2 ^ 64 := by
  induction n generalizing l r i with
  | zero => omega
  | succ n ih =>
    cases i with
    | zero =>
      simp only [mergeChunks]
      rw [u64At_zero_append_u64LE, Nat.mod_mod_of_dvd _ dvd_rfl]
      simp [u64At]
    | succ i =>
      simp only [mergeChunks]
      rw [u64At_append_u64LE, ih _ _ _ (by omega)]
      simp only [u64At, List.drop_drop]
      have h1 : 8 + 8 * i = 8 * (i + 1) := by omega
      rw [h1]

/-- C6: the Int64-array merge of two equal-length byte buffers (length a
multiple of 8) is the buffer whose i-th little-endian 64-bit element is
the wrapping sum of the operands' i-th elements; merging three-element
arrays [1,2,3] and [10,20,30] yields [11,22,33]; merging into a
nonexistent key returns the incoming buffer verbatim. -/
theorem int64ArrayMerge_elementwise_sum (l r : List Nat)
    (hlen : l.length = r.length) (h8 : r.length % 8 = 0) :
    (∃ out, int64ArrayMerge l r = some out ∧
      ∀ i < r.length / 8, u64At out i = (u64At l i + u64At r i) % 2 ^ 64) ∧
    int64ArrayMerge (u64LE 1 ++ u64LE 2 ++ u64LE 3) (u64LE 10 ++ u64LE 20 ++ u64LE 30) =
      some (u64LE 11 ++ u64LE 22 ++ u64LE 33) ∧
    ∀ bs, int64ArrayMergeNonexistent bs = bs := by
  refine ⟨⟨mergeChunks (r.length / 8) l r, ?_, ?_⟩, by decide, fun bs => rfl⟩
  · simp [int64ArrayMerge, hlen, h8]
  · intro i hi
    exact u64At_mergeChunks _ l r i hi

theorem int64ArrayMerge_elementwise_sum_witness :
    (∃ out, int64ArrayMerge (u64LE 1) (u64LE 10) = some out ∧
      ∀ i < (u64LE 10).length / 8,
        u64At out i = (u64At (u64LE 1) i + u64At (u64LE 10) i) % 2 ^ 64) ∧
    int64ArrayMerge (u64LE 1 ++ u64LE 2 ++ u64LE 3) (u64LE 10 ++ u64LE 20 ++ u64LE 30) =
      some (u64LE 11 ++ u64LE 22 ++ u64LE 33) ∧
    ∀ bs, int64ArrayMergeNonexistent bs = bs :=
  int64ArrayMerge_elementwise_sum (u64LE 1) (u64LE 10) (by decide) (by decide)

/-- C9: the merge operator never silently truncates — it fails (an
assertion fires, modelled as `none`) whenever the operand lengths differ
or are not a multiple of 8, and under the precondition it succeeds with
an output of exactly the operands' length. -/
theorem int64ArrayMerge_no_truncation (l r : List Nat) :
    (l.length ≠ r.length ∨ r.length % 8 ≠ 0 → int64ArrayMerge l r = none) ∧
    (l.length = r.length → r.length % 8 = 0 →
      ∃ out, int64ArrayMerge l r = some out ∧ out.length = r.length) := by
  constructor
  · intro h
    rw [int64ArrayMerge, if_neg]
    tauto
  · intro hlen h8
    refine ⟨mergeChunks (r.length / 8) l r, by simp [int64ArrayMerge, hlen, h8], ?_⟩
    rw [length_mergeChunks]
    omega

theorem int64ArrayMerge_no_truncation_witness :
    int64ArrayMerge (u64LE 0) [] = none ∧
    ∃ out, int64ArrayMerge (u64LE 0) (u64LE 5) = some out ∧
      out.length = (u64LE 5).length :=
  ⟨(int64ArrayMerge_no_truncation (u64LE 0) []).1 (by decide),
   (int64ArrayMerge_no_truncation (u64LE 0) (u64LE 5)).2 (by decide) (by decide)⟩

/-- Source: `AllocExtent` — a contiguous byte range on the device. -/
structure Extent where
  offset : Nat
  length : Nat
deriving DecidableEq, Repr

/-- Source: `FileMetadata` — object name, declared size, and the
object's allocated extent list. -/
structure FileMetadata where
  name : String
  size : Nat
  extents : List Extent
deriving DecidableEq, Repr

/-- Total byte length of an extent list. -/
def extSumLen (exs : List Extent) : Nat := (exs.map Extent.length).sum

/-- Durable key-value state relevant to the catalog: the metadata
namespace (name to encoded record) and the freelist expressed as a
by-byte free mark (the bitmap freelist records which device bytes are
free). -/
structure DurableState where
  md : String → Option (List Nat)
  isFree : Nat → Bool

/-- One staged key-value mutation: a metadata set or remove, or a
freelist allocate/release staged by the FreelistManager into the
caller's transaction. -/
inductive KVOp where
  | setMeta (key : String) (value : List Nat)
  | rmMeta (key : String)
  | fmAllocate (offset length : Nat)
  | fmRelease (offset length : Nat)
deriving DecidableEq, Repr

/-- Mark the byte range [off, off+len) of a free-map with value `v`. -/
def setRange (f : Nat → Bool) (off len : Nat) (v : Bool) : Nat → Bool :=
  fun x => if off ≤ x ∧ x < off + len then v else f x

/-- Effect of a single staged mutation on the durable state. -/
def applyOp (s : DurableState) : KVOp → DurableState
  | KVOp.setMeta k v => { s with md := fun k2 => if k2 = k then some v else s.md k2 }
  | KVOp.rmMeta k => { s with md := fun k2 => if k2 = k then none else s.md k2 }
  | KVOp.fmAllocate off len => { s with isFree := setRange s.isFree off len false }
  | KVOp.fmRelease off len => { s with isFree := setRange s.isFree off len true }

/-- Apply a whole transaction's staged mutations in order. -/
def applyTxn (s : DurableState) (t : List KVOp) : DurableState := t.foldl applyOp s

/-- Modelled from the spec: `KeyValueDB::submit_transaction_sync` is
atomic — the durable outcome of submitting transaction `t` is either
its full application (`ok = true`) or the unchanged prior state
(`ok = false`, a commit failure or a crash before commit). The concrete
transactional engine is not part of the sources. -/
def txnOutcome (s : DurableState) (t : List KVOp) (ok : Bool) : DurableState :=
  if ok then applyTxn s t else s

/-- Modelled from the spec: `SpaceAllocator` in-memory state — the
free-byte count it reports through `get_free`; the concrete extent
search structure is an external collaborator. -/
structure MemAlloc where
  free : Nat
deriving DecidableEq, Repr

/-- Modelled from the spec: `SpaceAllocator.release` returns a range to
the in-memory free index immediately, raising the free-byte count. -/
def allocRelease (a : MemAlloc) (_off len : Nat) : MemAlloc := ⟨a.free + len⟩

/-- Source: `save_metadata` — builds the value buffer as
`encode(size) || encode(extent_count)` followed by, per extent,
`encode(offset) || encode(length)` while staging one
`FreelistManager.allocate` per extent; then stages the metadata set
and submits the single transaction synchronously. `ok` is the commit
outcome; returns the durable outcome and the function's return code. -/
def save_metadata (s : DurableState) (m : FileMetadata) (ok : Bool) :
    DurableState × Int :=
  let start : List Nat × List KVOp := (u64LE m.size ++ u64LE m.extents.length, [])
  let fin := m.extents.foldl
    (fun acc e =>
      (acc.1 ++ u64LE e.offset ++ u64LE e.length,
       acc.2 ++ [KVOp.fmAllocate e.offset e.length]))
    start
  let t := fin.2 ++ [KVOp.setMeta m.name fin.1]
  (txnOutcome s t ok, if ok then 0 else -1)

/-- Source: `delete_metadata` — stages the metadata key removal, then
per extent applies the in-memory `SpaceAllocator.release` immediately
and stages the `FreelistManager.release`, then submits the single
transaction synchronously. `ok` is the commit outcome; returns the
in-memory allocator, the durable outcome, and the return code. -/
def delete_metadata (a : MemAlloc) (s : DurableState) (m : FileMetadata) (ok : Bool) :
    MemAlloc × DurableState × Int :=
  let start : MemAlloc × List KVOp := (a, [KVOp.rmMeta m.name])
  let fin := m.extents.foldl
    (fun acc e =>
      (allocRelease acc.1 e.offset e.length,
       acc.2 ++ [KVOp.fmRelease e.offset e.length]))
    start
  (fin.1, txnOutcome s fin.2 ok, if ok then 0 else -1)

/-- Source: the raw u64 decode — reads 8 little-endian bytes from the
front of the buffer; a short buffer raises an end-of-buffer error. -/
def decodeU64 (bs : List Nat) : Option (Nat × List Nat) :=
  if 8 ≤ bs.length then some (fromLEBytes (bs.take 8), bs.drop 8) else none

/-- Source: the extent-decoding loop of `load_metadata`/`load_space` —
reads `n` (offset, length) pairs. -/
def decodeExtents : Nat → List Nat → Option (List Extent × List Nat)
  | 0, bs => some ([], bs)
  | n + 1, bs =>
    match decodeU64 bs with
    | none => none
    | some (o, bs1) =>
      match decodeU64 bs1 with
      | none => none
      | some (l, bs2) =>
        match decodeExtents n bs2 with
        | none => none
        | some (exs, bs3) => some (⟨o, l⟩ :: exs, bs3)

/-- Source: `load_metadata` — gets the record by name (returning the
get error when absent), decodes `meta.size` in place, decodes the
extent count, fails with -1 when the count is zero (with `meta.size`
already overwritten), otherwise appends the decoded extents onto
`meta.extents`. `none` models an uncaught decode exception. -/
def load_metadata (s : DurableState) (m : FileMetadata) :
    Option (Int × FileMetadata) :=
  match s.md m.name with
  | none => some (-1, m)
  | some bs =>
    match decodeU64 bs with
    | none => none
    | some (size, bs1) =>
      match decodeU64 bs1 with
      | none => none
      | some (len, bs2) =>
        if len = 0 then some (-1, { m with size := size })
        else
          match decodeExtents len bs2 with
          | none => none
          | some (exs, _) => some (0, { m with size := size, extents := m.extents ++ exs })

/-- Source: `save_space` — stores `encode(extent_count)` followed by the
(offset, length) pairs under the given key, in its own transaction. -/
def save_space (s : DurableState) (key : String) (exs : List Extent) (ok : Bool) :
    DurableState × Int :=
  let value := u64LE exs.length ++
    exs.foldl (fun acc e => acc ++ u64LE e.offset ++ u64LE e.length) []
  (txnOutcome s [KVOp.setMeta key value] ok, if ok then 0 else -1)

/-- Source: `load_space` — gets the record by key, decodes the extent
count, fails with -1 when the count is zero, otherwise appends the
decoded extents. `none` models an uncaught decode exception. -/
def load_space (s : DurableState) (key : String) (exs : List Extent) :
    Option (Int × List Extent) :=
  match s.md key with
  | none => some (-1, exs)
  | some bs =>
    match decodeU64 bs with
    | none => none
    | some (len, bs1) =>
      if len = 0 then some (-1, exs)
      else
        match decodeExtents len bs1 with
        | none => none
        | some (out, _) => some (0, exs ++ out)

/-- The freelist-release ops staged by the delete loop, in source order. -/
def relOps (exs : List Extent) : List KVOp :=
  exs.map (fun e => KVOp.fmRelease e.offset e.length)

/-- The freelist-allocate ops staged by the save loop, in source order. -/
def allocOps (exs : List Extent) : List KVOp :=
  exs.map (fun e => KVOp.fmAllocate e.offset e.length)

/-- The per-extent (offset, length) pairs of the metadata value buffer. -/
def encExtPairs : List Extent → List Nat
  | [] => []
  | e :: rest => u64LE e.offset ++ u64LE e.length ++ encExtPairs rest

/-- The serialized metadata record:
size, then extent count, then (offset, length) pairs, all as raw u64. -/
def encodeMetaRecord (size : Nat) (exs : List Extent) : List Nat :=
  u64LE size ++ u64LE exs.length ++ encExtPairs exs

theorem delete_foldl (exs : List Extent) (a : MemAlloc) (ops : List KVOp) :
    exs.foldl
      (fun acc e =>
        (allocRelease acc.1 e.offset e.length,
         acc.2 ++ [KVOp.fmRelease e.offset e.length]))
      (a, ops) =
    (⟨a.free + extSumLen exs⟩, ops ++ relOps exs) := by
  induction exs generalizing a ops with
  | nil => simp [extSumLen, relOps]
  | cons e rest ih =>
    rw [List.foldl_cons, ih]
    simp only [relOps, extSumLen, List.map_cons, List.sum_cons, Prod.mk.injEq,
      MemAlloc.mk.injEq, List.append_assoc, List.singleton_append, allocRelease]
    exact ⟨by omega, trivial⟩

theorem save_foldl (exs : List Extent) (v : List Nat) (ops : List KVOp) :
    exs.foldl
      (fun acc e =>
        (acc.1 ++ u64LE e.offset ++ u64LE e.length,
         acc.2 ++ [KVOp.fmAllocate e.offset e.length]))
      (v, ops) =
    (v ++ encExtPairs exs, ops ++ allocOps exs) := by
  induction exs generalizing v ops with
  | nil => simp [encExtPairs, allocOps]
  | cons e rest ih =>
    simp only [List.foldl_cons, ih, encExtPairs, allocOps, List.map_cons]
    simp [Prod.mk.injEq, List.append_assoc]

theorem md_applyTxn_relOps (s : DurableState) (exs : List Extent) :
    (applyTxn s (relOps exs)).md = s.md := by
  induction exs generalizing s with
  | nil => rfl
  | cons e rest ih => simp only [relOps, List.map_cons, applyTxn, List.foldl_cons] at ih ⊢; exact ih _

theorem md_applyTxn_allocOps (s : DurableState) (exs : List Extent) :
    (applyTxn s (allocOps exs)).md = s.md := by
  induction exs generalizing s with
  | nil => rfl
  | cons e rest ih => simp only [allocOps, List.map_cons, applyTxn, List.foldl_cons] at ih ⊢; exact ih _

theorem isFree_applyTxn_relOps_mono (s : DurableState) (exs : List Extent) (x : Nat)
    (h : s.isFree x = true) : (applyTxn s (relOps exs)).isFree x = true := by
  induction exs generalizing s with
  | nil => exact h
  | cons e rest ih =>
    simp only [relOps, List.map_cons, applyTxn, List.foldl_cons] at ih ⊢
    apply ih
    simp only [applyOp, setRange]
    split <;> simp [h]

theorem isFree_applyTxn_relOps_covered (s : DurableState) (exs : List Extent)
    (e : Extent) (he : e ∈ exs) (x : Nat) (hx1 : e.offset ≤ x) (hx2 : x < e.offset + e.length) :
    (applyTxn s (relOps exs)).isFree x = true := by
  induction exs generalizing s with
  | nil => cases he
  | cons e2 rest ih =>
    simp only [relOps, List.map_cons, applyTxn, List.foldl_cons] at ih ⊢
    rcases List.mem_cons.mp he with he2 | he2
    · subst he2
      apply isFree_applyTxn_relOps_mono
      simp [applyOp, setRange, hx1, hx2]
    · exact ih _ he2

theorem isFree_applyTxn_allocOps_anti (s : DurableState) (exs : List Extent) (x : Nat)
    (h : s.isFree x = false) : (applyTxn s (allocOps exs)).isFree x = false := by
  induction exs generalizing s with
  | nil => exact h
  | cons e rest ih =>
    simp only [allocOps, List.map_cons, applyTxn, List.foldl_cons] at ih ⊢
    apply ih
    simp only [applyOp, setRange]
    split <;> simp [h]

theorem isFree_applyTxn_allocOps_covered (s : DurableState) (exs : List Extent)
    (e : Extent) (he : e ∈ exs) (x : Nat) (hx1 : e.offset ≤ x) (hx2 : x < e.offset + e.length) :
    (applyTxn s (allocOps exs)).isFree x = false := by
  induction exs generalizing s with
  | nil => cases he
  | cons e2 rest ih =>
    simp only [allocOps, List.map_cons, applyTxn, List.foldl_cons] at ih ⊢
    rcases List.mem_cons.mp he with he2 | he2
    · subst he2
      apply isFree_applyTxn_allocOps_anti
      simp [applyOp, setRange, hx1, hx2]
    · exact ih _ he2

/-- C1: the metadata-key removal and the FreelistManager release of
every extent of a delete are staged in one and the same transaction, so
neither durable outcome of the commit (success or failure) exhibits the
forbidden state in which the metadata record is absent while the
freelist still marks a byte of one of the object's extents as
allocated. -/
theorem delete_atomic_no_forbidden_state (a : MemAlloc) (s : DurableState)
    (m : FileMetadata) (ok : Bool) (v : List Nat) (hpre : s.md m.name = some v)
    (e : Extent) (he : e ∈ m.extents) (x : Nat)
    (hx1 : e.offset ≤ x) (hx2 : x < e.offset + e.length) :
    ¬((delete_metadata a s m ok).2.1.md m.name = none ∧
      (delete_metadata a s m ok).2.1.isFree x = false) := by
  have hd : (delete_metadata a s m ok).2.1 =
      txnOutcome s (KVOp.rmMeta m.name :: relOps m.extents) ok := by
    simp only [delete_metadata, delete_foldl, List.singleton_append]
  rw [hd]
  cases ok with
  | false =>
    intro h
    rw [txnOutcome] at h
    simp only [if_neg Bool.false_ne_true] at h
    rw [hpre] at h
    exact Option.some_ne_none v h.1
  | true =>
    intro h
    have hfree : (txnOutcome s (KVOp.rmMeta m.name :: relOps m.extents) true).isFree x = true := by
      rw [txnOutcome, if_pos rfl, applyTxn, List.foldl_cons]
      exact isFree_applyTxn_relOps_covered _ _ e he x hx1 hx2
    rw [hfree] at h
    exact absurd h.2 (by decide)

theorem delete_atomic_no_forbidden_state_witness :
    ¬((delete_metadata ⟨0⟩ ⟨fun k => if k = "f1" then some (u64LE 0) else none, fun _ => false⟩
        ⟨"f1", 2097152, [⟨2097152, 2097152⟩]⟩ false).2.1.md "f1" = none ∧
      (delete_metadata ⟨0⟩ ⟨fun k => if k = "f1" then some (u64LE 0) else none, fun _ => false⟩
        ⟨"f1", 2097152, [⟨2097152, 2097152⟩]⟩ false).2.1.isFree 2097152 = false) :=
  delete_atomic_no_forbidden_state ⟨0⟩
    ⟨fun k => if k = "f1" then some (u64LE 0) else none, fun _ => false⟩
    ⟨"f1", 2097152, [⟨2097152, 2097152⟩]⟩ false (u64LE 0) rfl
    ⟨2097152, 2097152⟩ (by decide) 2097152 (by decide) (by decide)

/-- C2 counterexample: with one 2 MiB extent and a failing commit, the
in-memory allocator's free-byte count after `delete_metadata` has
already grown by the released bytes, so the in-memory state is not
unchanged when `submit_transaction_sync` fails. -/
theorem delete_inmem_release_not_rolled_back :
    (delete_metadata ⟨0⟩ ⟨fun _ => none, fun _ => false⟩
      ⟨"f1", 2097152, [⟨2097152, 2097152⟩]⟩ false).1.free = 2097152 ∧
    (delete_metadata ⟨0⟩ ⟨fun _ => none, fun _ => false⟩
      ⟨"f1", 2097152, [⟨2097152, 2097152⟩]⟩ false).1.free ≠ (0 : Nat) := by
  constructor
  · rfl
  · decide

/-- C2 amended: in `delete_metadata` the in-memory
`SpaceAllocator.release` is applied before the transaction is
submitted; when the commit fails the durable state is unchanged and the
return code is -1, but the in-memory allocator's free-byte count has
already increased by the total length of the object's extents. -/
theorem delete_inmem_release_before_commit (a : MemAlloc) (s : DurableState)
    (m : FileMetadata) :
    (delete_metadata a s m false).1.free = a.free + extSumLen m.extents ∧
    (delete_metadata a s m false).2.1 = s ∧
    (delete_metadata a s m false).2.2 = -1 := by
  have h := delete_foldl m.extents a [KVOp.rmMeta m.name]
  simp only [delete_metadata, h]
  exact ⟨trivial, rfl, rfl⟩

theorem applyTxn_append (s : DurableState) (t1 t2 : List KVOp) :
    applyTxn s (t1 ++ t2) = applyTxn (applyTxn s t1) t2 := by
  simp [applyTxn, List.foldl_append]

theorem save_metadata_txn (s : DurableState) (m : FileMetadata) (ok : Bool) :
    save_metadata s m ok =
      (txnOutcome s
        (allocOps m.extents ++ [KVOp.setMeta m.name (encodeMetaRecord m.size m.extents)]) ok,
       if ok then 0 else -1) := by
  simp only [save_metadata, save_foldl]
  simp only [List.nil_append, encodeMetaRecord, List.append_assoc]

/-- C3: `save_metadata` stages, in one transaction, one
`FreelistManager.allocate` per extent plus one set of the serialized
record keyed by the object's name, and submits synchronously; a failed
commit changes no durable key-value state (and returns -1), while a
successful commit stores the record under the name and durably marks
every byte of every extent as allocated. -/
theorem save_staging_and_atomicity (s : DurableState) (m : FileMetadata) :
    ((save_metadata s m false).1 = s ∧ (save_metadata s m false).2 = -1) ∧
    (save_metadata s m true).1.md m.name = some (encodeMetaRecord m.size m.extents) ∧
    ∀ e ∈ m.extents, ∀ x, e.offset ≤ x → x < e.offset + e.length →
      (save_metadata s m true).1.isFree x = false := by
  simp only [save_metadata_txn]
  refine ⟨⟨rfl, rfl⟩, ?_, ?_⟩
  · rw [txnOutcome, if_pos rfl, applyTxn_append]
    simp [applyTxn, applyOp]
  · intro e he x hx1 hx2
    rw [txnOutcome, if_pos rfl, applyTxn_append]
    simp only [applyTxn, List.foldl_cons, List.foldl_nil, applyOp]
    exact isFree_applyTxn_allocOps_covered s m.extents e he x hx1 hx2

theorem save_staging_and_atomicity_witness :
    (save_metadata ⟨fun _ => none, fun _ => true⟩
        ⟨"f1", 2097152, [⟨2097152, 2097152⟩]⟩ true).1.md "f1" =
      some (encodeMetaRecord 2097152 [⟨2097152, 2097152⟩]) ∧
    (save_metadata ⟨fun _ => none, fun _ => true⟩
        ⟨"f1", 2097152, [⟨2097152, 2097152⟩]⟩ true).1.isFree 2097152 = false := by
  have h := save_staging_and_atomicity ⟨fun _ => none, fun _ => true⟩
    ⟨"f1", 2097152, [⟨2097152, 2097152⟩]⟩
  exact ⟨h.2.1, h.2.2 ⟨2097152, 2097152⟩ (by decide) 2097152 (by decide) (by decide)⟩

theorem decodeU64_u64LE (x : Nat) (rest : List Nat) :
    decodeU64 (u64LE x ++ rest) = some (x % 2 ^ 64, rest) := by
  have h8 : (u64LE x).length = 8 := length_u64LE x
  rw [decodeU64, if_pos (by simp [h8])]
  rw [show (8 : Nat) = (u64LE x).length from h8.symm, List.take_left, List.drop_left,
    fromLEBytes_u64LE]

theorem decodeExtents_encExtPairs (exs : List Extent) (rest : List Nat)
    (hb : ∀ e ∈ exs, e.offset < 2 ^ 64 ∧ e.length < 2 ^ 64) :
    decodeExtents exs.length (encExtPairs exs ++ rest) = some (exs, rest) := by
  induction exs with
  | nil => simp [encExtPairs, decodeExtents]
  | cons e tail ih =>
    have hbe := hb e (List.mem_cons_self e tail)
    have hbt : ∀ e2 ∈ tail, e2.offset < 2 ^ 64 ∧ e2.length < 2 ^ 64 :=
      fun e2 h2 => hb e2 (List.mem_cons_of_mem e h2)
    simp only [encExtPairs, List.length_cons, List.append_assoc, decodeExtents,
      decodeU64_u64LE, Nat.mod_eq_of_lt hbe.1, Nat.mod_eq_of_lt hbe.2, ih hbt]

theorem decodeU64_u64LE_self (x : Nat) : decodeU64 (u64LE x) = some (x % 2 ^ 64, []) := by
  conv_lhs => rw [← List.append_nil (u64LE x)]
  exact decodeU64_u64LE x []

theorem save_md_value (s : DurableState) (m m0 : FileMetadata) (hname : m0.name = m.name) :
    (save_metadata s m true).1.md m0.name = some (encodeMetaRecord m.size m.extents) := by
  rw [hname, save_metadata_txn, txnOutcome, if_pos rfl, applyTxn_append]
  simp [applyTxn, applyOp]

/-- C5 amended: decoding the metadata record encoding returns the
original size and ordered extent sequence, and `load_metadata` after a
successful `save_metadata` returns them unchanged, for every extent
list that is NOT empty (all quantities below 2^64); for the empty list
`load_metadata` instead fails even though the record was stored. -/
theorem metadata_roundtrip (s : DurableState) (m m0 : FileMetadata)
    (hname : m0.name = m.name) (hne : m.extents ≠ []) (hsz : m.size < 2 ^ 64)
    (hcnt : m.extents.length < 2 ^ 64)
    (hb : ∀ e ∈ m.extents, e.offset < 2 ^ 64 ∧ e.length < 2 ^ 64) :
    decodeExtents m.extents.length (encExtPairs m.extents) = some (m.extents, []) ∧
    load_metadata (save_metadata s m true).1 m0 =
      some (0, { m0 with size := m.size, extents := m0.extents ++ m.extents }) := by
  have hrt := decodeExtents_encExtPairs m.extents [] hb
  rw [List.append_nil] at hrt
  refine ⟨hrt, ?_⟩
  have hmd := save_md_value s m m0 hname
  simp only [load_metadata, hmd, encodeMetaRecord, List.append_assoc, decodeU64_u64LE,
    Nat.mod_eq_of_lt hsz, Nat.mod_eq_of_lt hcnt]
  rw [if_neg (fun h => hne (List.length_eq_zero.mp h))]
  have hrt2 := decodeExtents_encExtPairs m.extents [] hb
  rw [List.append_nil] at hrt2
  simp only [hrt2]

/-- C5 counterexample: an object saved with the empty extent list is
durably stored but `load_metadata` returns -1 for it (with the size
already overwritten), not the saved record — refuting the claim's
"including the empty list". -/
theorem metadata_roundtrip_empty_cex :
    load_metadata (save_metadata ⟨fun _ => none, fun _ => true⟩ ⟨"f1", 2097152, []⟩ true).1
        ⟨"f1", 0, []⟩ = some (-1, ⟨"f1", 2097152, []⟩) ∧
    load_metadata (save_metadata ⟨fun _ => none, fun _ => true⟩ ⟨"f1", 2097152, []⟩ true).1
        ⟨"f1", 0, []⟩ ≠ some (0, ⟨"f1", 2097152, []⟩) :=
  ⟨by decide, by decide⟩

theorem metadata_roundtrip_witness :
    decodeExtents ([⟨2097152, 2097152⟩] : List Extent).length
        (encExtPairs [⟨2097152, 2097152⟩]) = some ([⟨2097152, 2097152⟩], []) ∧
    load_metadata (save_metadata ⟨fun _ => none, fun _ => true⟩
        ⟨"f1", 2097152, [⟨2097152, 2097152⟩]⟩ true).1 ⟨"f1", 0, []⟩ =
      some (0, ⟨"f1", 2097152, [] ++ [⟨2097152, 2097152⟩]⟩) :=
  metadata_roundtrip ⟨fun _ => none, fun _ => true⟩
    ⟨"f1", 2097152, [⟨2097152, 2097152⟩]⟩ ⟨"f1", 0, []⟩ rfl (by decide) (by decide)
    (by decide) (by decide)

/-- C10: an object saved with an empty extent list is durably stored,
but `load_metadata` rejects the stored record (extent count zero) with
-1 after having already overwritten `meta.size` with the stored size;
`load_space` likewise returns -1 for a record stored by `save_space`
with no extents. -/
theorem load_zero_count_fails (s s2 : DurableState) (m m0 : FileMetadata) (key : String)
    (exs0 : List Extent) (hempty : m.extents = []) (hsz : m.size < 2 ^ 64)
    (hname : m0.name = m.name) :
    load_metadata (save_metadata s m true).1 m0 = some (-1, { m0 with size := m.size }) ∧
    load_space (save_space s2 key [] true).1 key exs0 = some (-1, exs0) := by
  constructor
  · have hmd := save_md_value s m m0 hname
    rw [hempty] at hmd
    simp only [load_metadata, hmd, encodeMetaRecord, encExtPairs, List.append_nil,
      List.length_nil, decodeU64_u64LE, decodeU64_u64LE_self, Nat.mod_eq_of_lt hsz,
      Nat.zero_mod, if_pos]
  · simp only [save_space, List.foldl_nil, List.append_nil, txnOutcome, if_pos,
      applyTxn, List.foldl_cons, applyOp, load_space]
    simp [List.length_nil, decodeU64_u64LE_self, Nat.zero_mod]

theorem load_zero_count_fails_witness :
    load_metadata (save_metadata ⟨fun _ => none, fun _ => true⟩ ⟨"f2", 4194304, []⟩ true).1
        ⟨"f2", 0, []⟩ = some (-1, ⟨"f2", 4194304, []⟩) ∧
    load_space (save_space ⟨fun _ => none, fun _ => true⟩ "k1" [] true).1 "k1"
        ([⟨0, 8⟩] : List Extent) = some (-1, [⟨0, 8⟩]) :=
  load_zero_count_fails ⟨fun _ => none, fun _ => true⟩ ⟨fun _ => none, fun _ => true⟩
    ⟨"f2", 4194304, []⟩ ⟨"f2", 0, []⟩ "k1" [⟨0, 8⟩] rfl (by decide) rfl

/-- Modelled from the spec: `SpaceAllocator.reserve` — admission check
of the requested size against the free-byte count, negative on
insufficient capacity (the source tests `reserve(meta.size) < 0`). -/
def allocReserve (a : MemAlloc) (size : Nat) : Int :=
  if a.free < size then -1 else 0

/-- Modelled from the spec: `SpaceAllocator.allocate` — the extent
search emits some extent list (passed here as the oracle `ex`, the runs
the search found), deducts its total from the free-byte count and
returns the allocated byte count; under fragmentation the total is
smaller than the request. -/
def allocAllocate (a : MemAlloc) (ex : List Extent) : MemAlloc × Int :=
  (⟨a.free - extSumLen ex⟩, (extSumLen ex : Int))

/-- Source: `allocate_space` — reserve, then allocate appending into
`meta.extents`, returning -1 unless the allocated byte count equals
`meta.size` exactly; no release or un-reserve happens on either failure
path. -/
def allocate_space (a : MemAlloc) (m : FileMetadata) (ex : List Extent) :
    MemAlloc × FileMetadata × Int :=
  if allocReserve a m.size < 0 then (a, m, -1)
  else
    let r := allocAllocate a ex
    let m2 := { m with extents := m.extents ++ ex }
    if r.2 ≠ (m.size : Int) then (r.1, m2, -1) else (r.1, m2, 0)

/-- C7 counterexample: with 6 MiB free, a 4 MiB request answered by a
single 2 MiB extent (fragmentation) makes `allocate_space` return -1,
yet the partial extent stays appended to `meta.extents` and stays
deducted from the allocator's free bytes — it is kept, not rolled
back. -/
theorem allocate_space_short_keeps_partial :
    (allocate_space ⟨6291456⟩ ⟨"f3", 4194304, []⟩ [⟨2097152, 2097152⟩]).2.2 = -1 ∧
    (allocate_space ⟨6291456⟩ ⟨"f3", 4194304, []⟩ [⟨2097152, 2097152⟩]).2.1.extents =
      [⟨2097152, 2097152⟩] ∧
    (allocate_space ⟨6291456⟩ ⟨"f3", 4194304, []⟩ [⟨2097152, 2097152⟩]).1.free = 4194304 ∧
    (4194304 : Nat) ≠ 6291456 :=
  ⟨by decide, by decide, by decide, by decide⟩

/-- C7 amended: when `SpaceAllocator.allocate` returns fewer bytes than
the requested object size, `allocate_space` returns failure (-1), but
the partially allocated extents are NOT rolled back: they remain
appended to `meta.extents` and remain deducted from the in-memory
allocator's free bytes (and the caller in `main` ignores the failure
code). -/
theorem allocate_space_short_no_rollback (a : MemAlloc) (m : FileMetadata)
    (ex : List Extent) (hres : m.size ≤ a.free) (hshort : extSumLen ex < m.size) :
    allocate_space a m ex =
      (⟨a.free - extSumLen ex⟩, { m with extents := m.extents ++ ex }, -1) := by
  have h1 : allocReserve a m.size = 0 := by
    rw [allocReserve, if_neg (by omega)]
  rw [allocate_space, h1, if_neg (by norm_num)]
  simp only [allocAllocate]
  rw [if_pos]
  intro h
  have : extSumLen ex = m.size := by exact_mod_cast h
  omega

theorem allocate_space_short_no_rollback_witness :
    allocate_space ⟨6291456⟩ ⟨"f4", 4194304, []⟩ [⟨4194304, 2097152⟩] =
      (⟨6291456 - extSumLen [⟨4194304, 2097152⟩]⟩,
       ⟨"f4", 4194304, [] ++ [⟨4194304, 2097152⟩]⟩, -1) :=
  allocate_space_short_no_rollback ⟨6291456⟩ ⟨"f4", 4194304, []⟩ [⟨4194304, 2097152⟩]
    (by decide) (by decide)

/-- Source constant: MB. -/
def MB : Nat := 1024 * 1024

/-- Source constant: SUPER_RESERVED. -/
def SUPER_RESERVED : Nat := 8192

/-- Source constant: DISK_SIZE, the device capacity. -/
def DISK_SIZE : Nat := 8 * MB

/-- Source constant: ALLOCATE_UNIT, the allocation unit. -/
def ALLOCATE_UNIT : Nat := 2 * MB

/-- Source: the ROUND_UP_TO macro. -/
def ROUND_UP_TO (n d : Nat) : Nat := if n % d = 0 then n else n + d - n % d

/-- Source: `create_fm` — the reserved head region, the maximum of
SUPER_RESERVED and ALLOCATE_UNIT rounded up to ALLOCATE_UNIT, allocated
at offset 0 when the device is created. -/
def reservedHead : Nat := ROUND_UP_TO (max SUPER_RESERVED ALLOCATE_UNIT) ALLOCATE_UNIT

/-- In-memory service state for the accounting model: the allocator's
reported free bytes and the catalog of live objects. -/
structure Sys where
  free : Nat
  live : List FileMetadata

/-- The freshly created service: the whole device free except the
reserved head, no objects. -/
def sysInit : Sys := ⟨DISK_SIZE - reservedHead, []⟩

/-- Modelled from the spec: one successful catalog operation.
A successful save (`allocate_space` + `save_metadata`) requires
admission (`reserve`), an allocation of exactly the declared size (the
source rejects any other allocate outcome, and the allocator only emits
multiples of the allocation unit), a fresh name, and deducts the size
from the free bytes; a delete (`load_metadata` + `delete_metadata`)
releases each stored extent back to the allocator. The extent-search
internals of `Allocator` are external to the sources. -/
inductive SysStep : Sys → Sys → Prop
  | save (s : Sys) (m : FileMetadata)
      (hres : m.size ≤ s.free)
      (halloc : extSumLen m.extents = m.size)
      (hunit : m.size % ALLOCATE_UNIT = 0)
      (hfresh : ∀ o ∈ s.live, o.name ≠ m.name) :
      SysStep s ⟨s.free - m.size, m :: s.live⟩
  | del (s : Sys) (o : FileMetadata) (hmem : o ∈ s.live) :
      SysStep s ⟨s.free + extSumLen o.extents, s.live.erase o⟩

/-- States reachable from the fresh service by successful operations. -/
def sysReachable (s : Sys) : Prop := Relation.ReflTransGen SysStep sysInit s

/-- Sum of the live objects' sizes rounded up to the allocation unit. -/
def liveRounded (s : Sys) : Nat :=
  (s.live.map (fun o => ROUND_UP_TO o.size ALLOCATE_UNIT)).sum

/-- Auxiliary invariant: the accounting equation plus the per-object
facts it needs to be inductive. -/
def sysGood (s : Sys) : Prop :=
  s.free + reservedHead + liveRounded s = DISK_SIZE ∧
  ∀ o ∈ s.live, o.size % ALLOCATE_UNIT = 0 ∧ extSumLen o.extents = o.size

theorem ROUND_UP_TO_self (n d : Nat) (h : n % d = 0) : ROUND_UP_TO n d = n := by
  rw [ROUND_UP_TO, if_pos h]

theorem sysGood_step {s s2 : Sys} (h : SysStep s s2) (hg : sysGood s) : sysGood s2 := by
  obtain ⟨hinv, hobj⟩ := hg
  cases h with
  | save m hres halloc hunit hfresh =>
    constructor
    · simp only [liveRounded, List.map_cons, List.sum_cons,
        ROUND_UP_TO_self m.size ALLOCATE_UNIT hunit] at hinv ⊢
      omega
    · intro o ho
      rcases List.mem_cons.mp ho with ho2 | ho2
      · subst ho2; exact ⟨hunit, halloc⟩
      · exact hobj o ho2
  | del o hmem =>
    have hperm : s.live.Perm (o :: s.live.erase o) := List.perm_cons_erase hmem
    have hsum : liveRounded s =
        ROUND_UP_TO o.size ALLOCATE_UNIT + liveRounded ⟨s.free + extSumLen o.extents, s.live.erase o⟩ := by
      simp only [liveRounded]
      rw [(hperm.map (fun o2 => ROUND_UP_TO o2.size ALLOCATE_UNIT)).sum_eq]
      simp
    obtain ⟨hu, ha⟩ := hobj o hmem
    constructor
    · rw [hsum, ROUND_UP_TO_self o.size ALLOCATE_UNIT hu] at hinv
      simp only at hinv ⊢
      omega
    · intro o2 ho2
      exact hobj o2 (List.mem_of_mem_erase ho2)

theorem sysGood_reachable {s : Sys} (h : sysReachable s) : sysGood s := by
  induction h with
  | refl =>
    refine ⟨by decide, ?_⟩
    intro o ho
    cases ho
  | tail h1 hstep ih => exact sysGood_step hstep ih

/-- C4: from the freshly created service (8 MiB capacity, 2 MiB
allocation unit, reserved head rounded up to one allocation unit),
after every sequence of successful save and delete operations the
allocator's free bytes plus the reserved head plus the live objects'
sizes rounded up to the allocation unit equal the device capacity. -/
theorem space_accounting_invariant (s : Sys) (h : sysReachable s) :
    s.free + reservedHead + liveRounded s = DISK_SIZE :=
  (sysGood_reachable h).1

theorem space_accounting_invariant_witness :
    (⟨DISK_SIZE - reservedHead - 2097152, [⟨"f1", 2097152, [⟨2097152, 2097152⟩]⟩]⟩ : Sys).free +
      reservedHead +
      liveRounded ⟨DISK_SIZE - reservedHead - 2097152, [⟨"f1", 2097152, [⟨2097152, 2097152⟩]⟩]⟩ =
      DISK_SIZE :=
  space_accounting_invariant _
    (Relation.ReflTransGen.single
      (SysStep.save sysInit ⟨"f1", 2097152, [⟨2097152, 2097152⟩]⟩
        (by decide) (by decide) (by decide) (by intro o ho; cases ho)))

/-- Source: `BloomHitSet::Params::encode` — the false-positive fraction
is stored as `uint16_t(false_positive * 1000000.0)`; the real-valued
computation is modelled exactly over the rationals (it is exact in
double precision at the inputs used below). -/
def bloomFppEncode (fp : ℚ) : Nat := (⌊fp * 1000000⌋).toNat % 65536

/-- Source: `BloomHitSet::Params::decode` — reconstructs
`false_positive` as `fpp_micro * 1000000.0`: the stored integer is
multiplied by the scale factor again instead of divided by it. -/
def bloomFppDecode (fpp_micro : Nat) : ℚ := (fpp_micro : ℚ) * 1000000

theorem bloomFppEncode_eval : bloomFppEncode (1 / 64) = 15625 := by
  rw [bloomFppEncode]
  norm_num
  decide

/-- C8: evaluating the source's encode/decode pair at
false_positive = 1/64 (0.015625, within [0, 0.065535]): encode stores
15625 micro-units, but decode multiplies by 1,000,000 instead of
dividing, returning 15,625,000,000 rather than 1/64 — while the
inverse scale (divide by 1,000,000) would recover the original
exactly. The code contradicts the consistent fixed-point scaling the
claim states. -/
theorem bloom_fpp_decode_scale_bug :
    bloomFppDecode (bloomFppEncode (1 / 64)) = 15625000000 ∧
    bloomFppDecode (bloomFppEncode (1 / 64)) ≠ 1 / 64 ∧
    (bloomFppEncode (1 / 64) : ℚ) / 1000000 = 1 / 64 := by
  refine ⟨?_, ?_, ?_⟩
  · rw [bloomFppEncode_eval, bloomFppDecode]
    norm_num
  · rw [bloomFppEncode_eval, bloomFppDecode]
    norm_num
  · rw [bloomFppEncode_eval]
    norm_num
